import Mathlib

/-!
Shallow embedding of the oracle change tracker (`track_oracles_ts.py`):
the record data model, the structured-literal extractor, the state-diff
engine, the snapshot loader and the dataset build loop, together with
theorems settling the specified properties.

Python dicts keyed by strings are embedded as association lists
(`List (String × _)`) whose unique-key invariant is maintained by
`updateAssoc`; a Python set of strings is embedded as its list of elements,
and `sorted(set(xs))` as `List.insertionSort (· ≤ ·) xs.dedup` (both orders
are lexicographic on code points).
-/

set_option autoImplicit false

namespace OracleTracker

/-! ### Python string primitives

Kernel-reducible implementations of the Python string order (lexicographic
on code points, the same order as Lean's `String` linear order) and of
`str.strip()`, used so that concrete runs of the embedded program can be
checked by `decide`. -/

/-- Boolean strict lexicographic order on char lists (Python `<` on
strings, viewed on their code points). -/
def pyLtb : List Char → List Char → Bool
  | [], [] => false
  | [], _ :: _ => true
  | _ :: _, [] => false
  | a :: as, b :: bs => if a < b then true else if a = b then pyLtb as bs else false

/-- Boolean `≤` on strings via `pyLtb`. -/
def pyLeb (l₁ l₂ : List Char) : Bool :=
  !pyLtb l₂ l₁

theorem pyLtb_iff_lex :
    ∀ l₁ l₂ : List Char, pyLtb l₁ l₂ = true ↔ List.Lex (· < ·) l₁ l₂ := by
  intro l₁
  induction l₁ with
  | nil =>
    intro l₂
    cases l₂ with
    | nil => exact iff_of_false (by simp [pyLtb]) (List.Lex.not_nil_right _ _)
    | cons b bs => exact iff_of_true rfl List.Lex.nil
  | cons a as ih =>
    intro l₂
    cases l₂ with
    | nil => exact iff_of_false (by simp [pyLtb]) (List.Lex.not_nil_right _ _)
    | cons b bs =>
      by_cases hab : a < b
      · exact iff_of_true (by simp [pyLtb, hab]) (List.Lex.rel hab)
      · by_cases heq : a = b
        · subst heq
          rw [List.Lex.cons_iff]
          simpa [pyLtb, hab] using ih bs
        · refine iff_of_false (by simp [pyLtb, hab, heq]) (fun h => ?_)
          cases h with
          | cons h => exact heq rfl
          | rel h => exact hab h

theorem pyLtb_iff_lt (s t : String) : pyLtb s.data t.data = true ↔ s < t := by
  rw [String.lt_iff_toList_lt]
  exact pyLtb_iff_lex s.data t.data

theorem pyLeb_iff_le (s t : String) : pyLeb s.data t.data = true ↔ s ≤ t := by
  unfold pyLeb
  rw [Bool.not_eq_true', ← not_lt (a := t) (b := s)]
  constructor
  · intro h hc
    exact absurd ((pyLtb_iff_lt t s).mpr hc) (by simp [h])
  · intro h
    by_contra hb
    exact h ((pyLtb_iff_lt t s).mp (by revert hb; cases pyLtb t.data s.data <;> simp))

/-- Kernel-reducible decidability of `String` `<` (the default instance is
defined by well-founded recursion over byte iterators, which `decide`
cannot evaluate). -/
instance (priority := 2000) decLtString : DecidableRel ((· < ·) : String → String → Prop) :=
  fun s t => decidable_of_iff (pyLtb s.data t.data = true) (pyLtb_iff_lt s t)

/-- Kernel-reducible decidability of `String` `≤`. -/
instance (priority := 2000) decLeString : DecidableRel ((· ≤ ·) : String → String → Prop) :=
  fun s t => decidable_of_iff (pyLeb s.data t.data = true) (pyLeb_iff_le s t)

/-- Python `str.strip()`: drop leading and trailing whitespace. -/
def pyStrip (s : String) : String :=
  ⟨((s.data.dropWhile Char.isWhitespace).reverse.dropWhile Char.isWhitespace).reverse⟩

/-- One `{name, type}` entry of an `oraclesBreakdown` array. -/
structure BreakdownItem where
  name : String
  type : String
deriving DecidableEq, Repr

/-- The normalized record built by `object_to_protocol_min`:
`{"id": pid, "name": name_val, "file": file_name, "oracles": oracles,
"oraclesBreakdown": breakdown}`. -/
structure ProtocolRec where
  id : String
  name : String
  file : String
  oracles : List String
  oraclesBreakdown : List BreakdownItem
deriving DecidableEq, Repr

/-- One change record appended by `diff_states`. -/
structure ChangeRec where
  id : String
  name : String
  file : String
  plus : List String
  minus : List String
  types : List (String × String × String)
deriving DecidableEq, Repr

/-- A Python dict keyed by strings, as an association list (unique keys are
maintained by `updateAssoc`). -/
abbrev Dict (α : Type) : Type := List (String × α)

/-- A Dataset: the mapping from protocol id to record. -/
abbrev Dataset : Type := Dict ProtocolRec

/-- Python dict assignment `d[k] = v`: replace the value at an existing key
in place, otherwise append the new binding at the end. -/
def updateAssoc {α : Type} (l : Dict α) (k : String) (v : α) : Dict α :=
  if l.any (fun p => p.1 == k) then l.map (fun p => if p.1 == k then (k, v) else p)
  else l ++ [(k, v)]

/-- The keys of a dict, in insertion order (`set(d)` in Python, as a list). -/
def keysOf {α : Type} (l : Dict α) : List String :=
  l.map Prod.fst

/-- Python `sorted` applied to a set of strings given by a list of its
elements. -/
def pySorted (xs : List String) : List String :=
  List.insertionSort (· ≤ ·) xs.dedup

/-- Python set difference `set(xs) - set(ys)`, as the list of elements. -/
def setDiff (xs ys : List String) : List String :=
  xs.filter (fun x => decide (x ∉ ys))

/-- Python set intersection `set(xs) & set(ys)`, as the list of elements. -/
def setInter (xs ys : List String) : List String :=
  xs.filter (fun x => decide (x ∈ ys))

/-- `breakdown_name_to_type`: the dict comprehension
`{ (x.get("name") or "").strip(): (x.get("type") or "").strip()
   for x in lst if (x.get("name") or "").strip() }`. -/
def breakdown_name_to_type (lst : List BreakdownItem) : Dict String :=
  lst.foldl (fun acc x =>
    if pyStrip x.name = "" then acc else updateAssoc acc (pyStrip x.name) (pyStrip x.type)) []

/-- `plus = sorted(set(added_names) | or_added)` for records `a` (previous)
and `b` (next): breakdown names newly present unioned with the flat-oracle
set difference `set(b.oracles) - set(a.oracles)`. -/
def diffPlus (a b : ProtocolRec) : List String :=
  pySorted (setDiff (keysOf (breakdown_name_to_type b.oraclesBreakdown))
                    (keysOf (breakdown_name_to_type a.oraclesBreakdown))
            ++ setDiff b.oracles a.oracles)

/-- `minus = sorted(set(removed_names) | or_removed)`. -/
def diffMinus (a b : ProtocolRec) : List String :=
  pySorted (setDiff (keysOf (breakdown_name_to_type a.oraclesBreakdown))
                    (keysOf (breakdown_name_to_type b.oraclesBreakdown))
            ++ setDiff a.oracles b.oracles)

/-- `type_changes = [(n, a_bt[n], b_bt[n]) for n in sorted(names_prev &
names_next) if a_bt[n] != b_bt[n]]`. -/
def diffTypes (a b : ProtocolRec) : List (String × String × String) :=
  let a_bt := breakdown_name_to_type a.oraclesBreakdown
  let b_bt := breakdown_name_to_type b.oraclesBreakdown
  (pySorted (setInter (keysOf a_bt) (keysOf b_bt))).filterMap (fun n =>
    match a_bt.lookup n, b_bt.lookup n with
    | some ta, some tb => if ta ≠ tb then some (n, ta, tb) else none
    | _, _ => none)

/-- The body of the `diff_states` loop for one id `pid` present on both
sides (records `a` from `prev`, `b` from `nxt`); returns the change record
appended to `changes`, if any. -/
def diffOne (pid : String) (a b : ProtocolRec) : Option ChangeRec :=
  if diffPlus a b ≠ [] ∨ diffMinus a b ≠ [] ∨ diffTypes a b ≠ [] then
    some { id := pid, name := if b.name ≠ "" then b.name else a.name, file := b.file,
           plus := diffPlus a b, minus := diffMinus a b, types := diffTypes a b }
  else none

/-- `diff_states(prev, nxt)`: iterate `sorted(set(prev) | set(nxt))`, skip
ids missing from either side, and collect the per-id change records. -/
def diff_states (prev nxt : Dataset) : List ChangeRec :=
  (pySorted (keysOf prev ++ keysOf nxt)).filterMap (fun pid =>
    match prev.lookup pid, nxt.lookup pid with
    | some a, some b => diffOne pid a b
    | _, _ => none)

/-! ### Dict and sorting lemmas -/

theorem lookup_cons {α : Type} (k : String) (p : String × α) (l : Dict α) :
    List.lookup k (p :: l) = if k = p.1 then some p.2 else List.lookup k l := by
  obtain ⟨a, b⟩ := p
  by_cases h : k = a
  · simp [List.lookup, h]
  · simp [List.lookup, h, beq_eq_false_iff_ne.mpr h]

theorem lookup_isSome_iff {α : Type} (k : String) (l : Dict α) :
    (List.lookup k l).isSome = true ↔ k ∈ keysOf l := by
  induction l with
  | nil => simp [keysOf]
  | cons p l ih =>
    rw [lookup_cons]
    by_cases h : k = p.1 <;> simp only [keysOf, List.map_cons, List.mem_cons, h] <;> simp [ih, keysOf]

theorem updateAssoc_cons_ne {α : Type} (p : String × α) (l : Dict α) (k : String) (v : α)
    (h : ¬ p.1 = k) : updateAssoc (p :: l) k v = p :: updateAssoc l k v := by
  by_cases hl : l.any (fun q => q.1 == k) <;>
    simp [updateAssoc, hl, h]

theorem updateAssoc_cons_eq {α : Type} (p : String × α) (l : Dict α) (k : String) (v : α)
    (h : p.1 = k) :
    updateAssoc (p :: l) k v = (k, v) :: l.map (fun q => if q.1 == k then (k, v) else q) := by
  simp [updateAssoc, h]

theorem lookup_map_replace {α : Type} (l : Dict α) (k : String) (v : α) (k' : String)
    (h : ¬ k' = k) :
    List.lookup k' (l.map (fun q => if q.1 == k then (k, v) else q)) = List.lookup k' l := by
  induction l with
  | nil => rfl
  | cons q l ih =>
    by_cases hq : q.1 = k
    · rw [List.map_cons, if_pos (by simpa using hq), lookup_cons, lookup_cons, if_neg (by simpa),
        if_neg (by simp [hq, h]), ih]
    · rw [List.map_cons, if_neg (by simpa using hq), lookup_cons, lookup_cons, ih]

theorem lookup_updateAssoc {α : Type} (l : Dict α) (k : String) (v : α) (k' : String) :
    List.lookup k' (updateAssoc l k v) = if k' = k then some v else List.lookup k' l := by
  induction l with
  | nil =>
    show List.lookup k' [(k, v)] = _
    rw [lookup_cons]
  | cons p l ih =>
    by_cases hp : p.1 = k
    · rw [updateAssoc_cons_eq p l k v hp, lookup_cons]
      by_cases h : k' = k
      · simp [h]
      · rw [if_neg (by simpa using h), lookup_map_replace l k v k' h, if_neg h, lookup_cons,
          if_neg (by rw [hp]; exact h)]
    · rw [updateAssoc_cons_ne p l k v hp, lookup_cons, lookup_cons, ih]
      by_cases h : k' = p.1
      · rw [if_pos h, if_pos h, if_neg (h ▸ hp)]
      · rw [if_neg h, if_neg h]

theorem mem_pySorted (x : String) (xs : List String) : x ∈ pySorted xs ↔ x ∈ xs := by
  unfold pySorted
  rw [(List.perm_insertionSort _ _).mem_iff]
  exact List.mem_dedup

theorem sorted_pySorted (xs : List String) : (pySorted xs).Sorted (· ≤ ·) :=
  List.sorted_insertionSort _ _

theorem nodup_pySorted (xs : List String) : (pySorted xs).Nodup :=
  (List.perm_insertionSort _ _).nodup_iff.mpr (List.nodup_dedup xs)

theorem sortedLt_pySorted (xs : List String) : (pySorted xs).Sorted (· < ·) :=
  (sorted_pySorted xs).lt_of_le (nodup_pySorted xs)

theorem pySorted_eq_nil {xs : List String} (h : xs = []) : pySorted xs = [] := by
  subst h; rfl

theorem mem_setDiff (x : String) (xs ys : List String) :
    x ∈ setDiff xs ys ↔ x ∈ xs ∧ x ∉ ys := by
  simp [setDiff]

theorem mem_setInter (x : String) (xs ys : List String) :
    x ∈ setInter xs ys ↔ x ∈ xs ∧ x ∈ ys := by
  simp [setInter]

theorem setDiff_self (xs : List String) : setDiff xs xs = [] :=
  List.filter_eq_nil_iff.mpr (by simp)

/-! ### The `name -> type` breakdown map -/

theorem bt_foldl_lookup (lst : List BreakdownItem) (acc : Dict String) (n : String)
    (hn : ¬ n = "") :
    List.lookup n (lst.foldl (fun acc x =>
        if pyStrip x.name = "" then acc
        else updateAssoc acc (pyStrip x.name) (pyStrip x.type)) acc) =
      ((lst.reverse.find? (fun x => pyStrip x.name == n)).map (fun x => pyStrip x.type)).or
        (List.lookup n acc) := by
  induction lst generalizing acc with
  | nil => simp
  | cons x xs ih =>
    rw [List.foldl_cons, ih, List.reverse_cons, List.find?_append]
    cases hfind : xs.reverse.find? (fun x => pyStrip x.name == n) with
    | some y => simp
    | none =>
      simp only [Option.none_or, Option.map_none']
      by_cases hx : pyStrip x.name = ""
      · have hh : (pyStrip x.name == n) = false := by
          rw [hx]; exact beq_eq_false_iff_ne.mpr (fun e => hn e.symm)
        rw [if_pos hx, List.find?_cons_of_neg _ (by simp [hh]), List.find?_nil]
        simp
      · rw [if_neg hx, lookup_updateAssoc]
        by_cases hxn : pyStrip x.name = n
        · rw [List.find?_cons_of_pos _ (by simp [hxn]), if_pos hxn.symm]
          simp [hxn]
        · rw [List.find?_cons_of_neg _ (by simp [hxn]), if_neg (fun e => hxn e.symm)]
          simp

theorem bt_lookup (lst : List BreakdownItem) (n : String) (hn : ¬ n = "") :
    List.lookup n (breakdown_name_to_type lst) =
      (lst.reverse.find? (fun x => pyStrip x.name == n)).map (fun x => pyStrip x.type) := by
  unfold breakdown_name_to_type
  rw [bt_foldl_lookup lst [] n hn]
  simp

theorem bt_lookup_empty (lst : List BreakdownItem) :
    List.lookup "" (breakdown_name_to_type lst) = none := by
  unfold breakdown_name_to_type
  induction lst using List.reverseRecOn with
  | nil => rfl
  | append_singleton xs x ih =>
    rw [List.foldl_append, List.foldl_cons, List.foldl_nil]
    by_cases hx : pyStrip x.name = ""
    · rw [if_pos hx]; exact ih
    · rw [if_neg hx, lookup_updateAssoc, if_neg (fun e => hx e.symm)]; exact ih

/-- The breakdown names of a record side, as `diff_states` sees them: the
stripped, non-empty `name` fields (the key set of `breakdown_name_to_type`,
by `mem_keysOf_bt`). -/
def bdName (l : List BreakdownItem) (x : String) : Prop :=
  ¬ x = "" ∧ ∃ e ∈ l, pyStrip e.name = x

instance (l : List BreakdownItem) (x : String) : Decidable (bdName l x) := by
  unfold bdName; exact inferInstance

theorem mem_keysOf_bt (lst : List BreakdownItem) (n : String) :
    n ∈ keysOf (breakdown_name_to_type lst) ↔ bdName lst n := by
  by_cases hn : n = ""
  · subst hn
    rw [← lookup_isSome_iff, bt_lookup_empty]
    simp [bdName]
  · rw [← lookup_isSome_iff, bt_lookup lst n hn]
    simp [bdName, hn, List.find?_isSome]

theorem bt_lookup_some {lst : List BreakdownItem} {n t : String}
    (h : List.lookup n (breakdown_name_to_type lst) = some t) :
    ¬ n = "" ∧ ∃ x ∈ lst, pyStrip x.name = n ∧ pyStrip x.type = t := by
  by_cases hn : n = ""
  · rw [hn, bt_lookup_empty] at h; cases h
  · rw [bt_lookup lst n hn] at h
    obtain ⟨y, hy, hgy⟩ := Option.map_eq_some'.mp h
    refine ⟨hn, y, List.mem_reverse.mp (List.mem_of_find?_eq_some hy), ?_, hgy⟩
    have := List.find?_some hy
    simpa using this

/-! ### Characterization of the per-id diff components -/

theorem mem_diffPlus (a b : ProtocolRec) (x : String) :
    x ∈ diffPlus a b ↔
      (bdName b.oraclesBreakdown x ∧ ¬ bdName a.oraclesBreakdown x)
      ∨ (x ∈ b.oracles ∧ x ∉ a.oracles) := by
  unfold diffPlus
  rw [mem_pySorted, List.mem_append, mem_setDiff, mem_setDiff, mem_keysOf_bt, mem_keysOf_bt]

theorem diffMinus_eq (a b : ProtocolRec) : diffMinus a b = diffPlus b a := rfl

theorem mem_diffMinus (a b : ProtocolRec) (x : String) :
    x ∈ diffMinus a b ↔
      (bdName a.oraclesBreakdown x ∧ ¬ bdName b.oraclesBreakdown x)
      ∨ (x ∈ a.oracles ∧ x ∉ b.oracles) := by
  rw [diffMinus_eq]; exact mem_diffPlus b a x

theorem sorted_diffPlus (a b : ProtocolRec) : (diffPlus a b).Sorted (· < ·) :=
  sortedLt_pySorted _

theorem sorted_diffMinus (a b : ProtocolRec) : (diffMinus a b).Sorted (· < ·) :=
  sortedLt_pySorted _

theorem diffTypes_entry {a_bt b_bt : Dict String} {n : String}
    {c : String × String × String}
    (h : (match a_bt.lookup n, b_bt.lookup n with
          | some ta, some tb => if ta ≠ tb then some (n, ta, tb) else none
          | _, _ => none) = some c) :
    c = (n, c.2.1, c.2.2) ∧ a_bt.lookup n = some c.2.1 ∧ b_bt.lookup n = some c.2.2 ∧
      ¬ c.2.1 = c.2.2 := by
  cases ha : a_bt.lookup n <;> rw [ha] at h
  · cases h
  · cases hb : b_bt.lookup n <;> rw [hb] at h
    · cases h
    · rename_i ta tb
      have h' : (if ta ≠ tb then some (n, ta, tb) else none) = some c := h
      by_cases hne : ta = tb
      · rw [if_neg (not_not_intro hne)] at h'
        cases h'
      · rw [if_pos hne] at h'
        cases h'
        exact ⟨rfl, rfl, rfl, hne⟩

theorem mem_diffTypes (a b : ProtocolRec) (n t₁ t₂ : String) :
    (n, t₁, t₂) ∈ diffTypes a b ↔
      List.lookup n (breakdown_name_to_type a.oraclesBreakdown) = some t₁ ∧
      List.lookup n (breakdown_name_to_type b.oraclesBreakdown) = some t₂ ∧ ¬ t₁ = t₂ := by
  unfold diffTypes
  rw [List.mem_filterMap]
  constructor
  · rintro ⟨n', _, hf⟩
    obtain ⟨heq, ha, hb, hne⟩ := diffTypes_entry hf
    cases heq
    exact ⟨ha, hb, hne⟩
  · rintro ⟨ha, hb, hne⟩
    refine ⟨n, ?_, ?_⟩
    · rw [mem_pySorted, mem_setInter, ← lookup_isSome_iff, ← lookup_isSome_iff, ha, hb]
      exact ⟨rfl, rfl⟩
    · simp [ha, hb, hne]

theorem pairwise_fst_diffTypes (a b : ProtocolRec) :
    (diffTypes a b).Pairwise (fun p q => p.1 < q.1) := by
  unfold diffTypes
  refine List.Pairwise.filterMap _ (fun x y hxy c hc d hd => ?_) (sortedLt_pySorted _)
  obtain ⟨hceq, -, -, -⟩ := diffTypes_entry hc
  obtain ⟨hdeq, -, -, -⟩ := diffTypes_entry hd
  rw [hceq, hdeq]
  exact hxy

/-! ### `diffOne` and `diff_states` structure -/

theorem diffOne_eq_some {pid : String} {a b : ProtocolRec} {c : ChangeRec}
    (h : diffOne pid a b = some c) :
    c = { id := pid, name := if b.name ≠ "" then b.name else a.name, file := b.file,
          plus := diffPlus a b, minus := diffMinus a b, types := diffTypes a b } := by
  unfold diffOne at h
  split at h
  · exact (Option.some.inj h).symm
  · cases h

theorem diffOne_id {pid : String} {a b : ProtocolRec} {c : ChangeRec}
    (h : diffOne pid a b = some c) : c.id = pid := by
  rw [diffOne_eq_some h]

theorem diffOne_self (pid : String) (a : ProtocolRec) : diffOne pid a a = none := by
  have h1 : diffPlus a a = [] := pySorted_eq_nil (by rw [setDiff_self, setDiff_self]; rfl)
  have h2 : diffMinus a a = [] := by rw [diffMinus_eq]; exact h1
  have h3 : diffTypes a a = [] := by
    unfold diffTypes
    refine List.filterMap_eq_nil_iff.mpr (fun n _ => ?_)
    cases hl : List.lookup n (breakdown_name_to_type a.oraclesBreakdown) <;> simp [hl]
  unfold diffOne
  rw [h1, h2, h3]
  simp

theorem mem_diff_states {prev nxt : Dataset} {c : ChangeRec} :
    c ∈ diff_states prev nxt ↔
      ∃ a b, List.lookup c.id prev = some a ∧ List.lookup c.id nxt = some b ∧
        diffOne c.id a b = some c := by
  unfold diff_states
  rw [List.mem_filterMap]
  constructor
  · rintro ⟨pid, _, hf⟩
    cases ha : List.lookup pid prev <;> rw [ha] at hf
    · cases hf
    · cases hb : List.lookup pid nxt <;> rw [hb] at hf
      · cases hf
      · rename_i a b
        refine ⟨a, b, ?_, ?_, ?_⟩ <;> rw [diffOne_id hf] <;> assumption
  · rintro ⟨a, b, ha, hb, hf⟩
    refine ⟨c.id, ?_, ?_⟩
    · rw [mem_pySorted, List.mem_append, ← lookup_isSome_iff, ha]
      exact Or.inl rfl
    · rw [ha, hb]
      exact hf

/-! ### Concrete sample data for witnesses and counterexamples -/

/-- Scenario A previous record: `{p1: oracles=[a,b]}`. -/
def recAB : ProtocolRec := ⟨"p1", "", "data.ts", ["a", "b"], []⟩

/-- Scenario A next record: `{p1: oracles=[b,c]}`. -/
def recBC : ProtocolRec := ⟨"p1", "", "data.ts", ["b", "c"], []⟩

/-- Scenario A expected change record. -/
def changeAC : ChangeRec := ⟨"p1", "", "data.ts", ["c"], ["a"], []⟩

/-- A record carrying oracle `x` only in the flat `oracles` list. -/
def recFlatX : ProtocolRec := ⟨"p1", "", "data.ts", ["x"], []⟩

/-- A record carrying oracle `x` only as an `oraclesBreakdown` entry. -/
def recBdX : ProtocolRec := ⟨"p1", "", "data.ts", [], [⟨"x", "t"⟩]⟩

/-- The change record `diff_states` emits between `recFlatX` and `recBdX`:
`x` occurs in `plus` and in `minus` at once. -/
def changeXX : ChangeRec := ⟨"p1", "", "data.ts", ["x"], ["x"], []⟩

/-- Scenario C previous record: breakdown entry `{name: Chainlink, type: primary}`. -/
def recChainPrimary : ProtocolRec := ⟨"p1", "", "data.ts", [], [⟨"Chainlink", "primary"⟩]⟩

/-- Scenario C next record: breakdown entry `{name: Chainlink, type: secondary}`. -/
def recChainSecondary : ProtocolRec := ⟨"p1", "", "data.ts", [], [⟨"Chainlink", "secondary"⟩]⟩

/-- Scenario C expected change record. -/
def changeChain : ChangeRec := ⟨"p1", "", "data.ts", [], [], [("Chainlink", "primary", "secondary")]⟩

/-! ### Claim theorems: the diff engine -/

/-- C1 counterexample: when an oracle name moves from the flat `oracles`
list to the `oraclesBreakdown` names (or back), `diff_states` puts the same
string into both `plus` and `minus` of one change record, so `plus` and
`minus` are not disjoint. -/
theorem c1_counterexample :
    diff_states [("p1", recFlatX)] [("p1", recBdX)] = [changeXX] ∧
      "x" ∈ changeXX.plus ∧ "x" ∈ changeXX.minus := by
  decide

/-- C1 (amended): for a shared id, an element of both `plus` and `minus`
can only be a name that moved between the two representations - it is a
flat-oracle addition and a breakdown-name removal, or a breakdown-name
addition and a flat-oracle removal; within a single representation,
additions and removals stay disjoint. -/
theorem c1_plus_minus_overlap (prev nxt : Dataset) (a b : ProtocolRec) (c : ChangeRec)
    (hc : c ∈ diff_states prev nxt)
    (ha : List.lookup c.id prev = some a) (hb : List.lookup c.id nxt = some b)
    (x : String) (hp : x ∈ c.plus) (hm : x ∈ c.minus) :
    ((x ∈ b.oracles ∧ x ∉ a.oracles) ∧
      (bdName a.oraclesBreakdown x ∧ ¬ bdName b.oraclesBreakdown x))
    ∨ ((x ∈ a.oracles ∧ x ∉ b.oracles) ∧
      (bdName b.oraclesBreakdown x ∧ ¬ bdName a.oraclesBreakdown x)) := by
  obtain ⟨a', b', ha', hb', hf⟩ := mem_diff_states.mp hc
  obtain rfl : a = a' := Option.some.inj (ha.symm.trans ha')
  obtain rfl : b = b' := Option.some.inj (hb.symm.trans hb')
  have hceq := diffOne_eq_some hf
  rw [hceq] at hp hm
  replace hp := (mem_diffPlus a b x).mp hp
  replace hm := (mem_diffMinus a b x).mp hm
  tauto

theorem c1_plus_minus_overlap_witness :
    ((("x" : String) ∈ recBdX.oracles ∧ "x" ∉ recFlatX.oracles) ∧
      (bdName recFlatX.oraclesBreakdown "x" ∧ ¬ bdName recBdX.oraclesBreakdown "x"))
    ∨ ((("x" : String) ∈ recFlatX.oracles ∧ "x" ∉ recBdX.oracles) ∧
      (bdName recBdX.oraclesBreakdown "x" ∧ ¬ bdName recFlatX.oraclesBreakdown "x")) :=
  c1_plus_minus_overlap [("p1", recFlatX)] [("p1", recBdX)] recFlatX recBdX changeXX
    (by decide) (by decide) (by decide) "x" (by decide) (by decide)

/-- C2: diffing any dataset against itself yields the empty change-set. -/
theorem c2_diff_self_empty (d : Dataset) : diff_states d d = [] := by
  unfold diff_states
  refine List.filterMap_eq_nil_iff.mpr (fun pid _ => ?_)
  cases h : List.lookup pid d with
  | none => rfl
  | some a => exact diffOne_self pid a

/-- C3: every change record emitted by `diff_states` is for an id present
in both datasets; an id present on only one side (a record-level addition
or removal, whatever its oracles) produces no change record. -/
theorem c3_only_shared_ids (prev nxt : Dataset) (c : ChangeRec)
    (h : c ∈ diff_states prev nxt) :
    (List.lookup c.id prev).isSome = true ∧ (List.lookup c.id nxt).isSome = true := by
  obtain ⟨a, b, ha, hb, -⟩ := mem_diff_states.mp h
  rw [ha, hb]
  exact ⟨rfl, rfl⟩

theorem c3_only_shared_ids_witness :
    (List.lookup changeAC.id [("p1", recAB)]).isSome = true ∧
      (List.lookup changeAC.id [("p1", recBC)]).isSome = true :=
  c3_only_shared_ids [("p1", recAB)] [("p1", recBC)] changeAC (by decide)

/-- C4: for a shared id, the emitted `plus` is exactly the set union of the
flat-oracle difference `next.oracles - prev.oracles` with the breakdown
names newly present, and `minus` the union of `prev.oracles - next.oracles`
with the breakdown names newly absent, both strictly sorted (sorted and
duplicate-free). -/
theorem c4_plus_minus_characterization (prev nxt : Dataset) (a b : ProtocolRec) (c : ChangeRec)
    (hc : c ∈ diff_states prev nxt)
    (ha : List.lookup c.id prev = some a) (hb : List.lookup c.id nxt = some b) :
    (∀ x, x ∈ c.plus ↔
      (x ∈ b.oracles ∧ x ∉ a.oracles)
      ∨ (bdName b.oraclesBreakdown x ∧ ¬ bdName a.oraclesBreakdown x)) ∧
    (∀ x, x ∈ c.minus ↔
      (x ∈ a.oracles ∧ x ∉ b.oracles)
      ∨ (bdName a.oraclesBreakdown x ∧ ¬ bdName b.oraclesBreakdown x)) ∧
    c.plus.Sorted (· < ·) ∧ c.minus.Sorted (· < ·) := by
  obtain ⟨a', b', ha', hb', hf⟩ := mem_diff_states.mp hc
  obtain rfl : a = a' := Option.some.inj (ha.symm.trans ha')
  obtain rfl : b = b' := Option.some.inj (hb.symm.trans hb')
  have hceq := diffOne_eq_some hf
  refine ⟨fun x => ?_, fun x => ?_, ?_, ?_⟩
  · rw [hceq]
    exact (mem_diffPlus a b x).trans (by tauto)
  · rw [hceq]
    exact (mem_diffMinus a b x).trans (by tauto)
  · rw [hceq]
    exact sorted_diffPlus a b
  · rw [hceq]
    exact sorted_diffMinus a b

theorem c4_plus_minus_characterization_witness :
    diff_states [("p1", recAB)] [("p1", recBC)] = [changeAC] ∧
    (("c" : String) ∈ changeAC.plus ↔
      (("c" : String) ∈ recBC.oracles ∧ "c" ∉ recAB.oracles)
      ∨ (bdName recBC.oraclesBreakdown "c" ∧ ¬ bdName recAB.oraclesBreakdown "c")) :=
  ⟨by decide,
    (c4_plus_minus_characterization [("p1", recAB)] [("p1", recBC)] recAB recBC changeAC
      (by decide) (by decide) (by decide)).1 "c"⟩

/-- C5: for a shared id, `types` holds exactly the tuples
`(name, oldType, newType)` for names mapped by both sides' breakdown
name-to-type maps with differing types, in strictly ascending name order
(hence one tuple per name); a name present in both maps can enter `plus`
or `minus` only through the flat `oracles` sets, so a breakdown entry whose
name is unchanged contributes only to `types`. -/
theorem c5_types_characterization (prev nxt : Dataset) (a b : ProtocolRec) (c : ChangeRec)
    (hc : c ∈ diff_states prev nxt)
    (ha : List.lookup c.id prev = some a) (hb : List.lookup c.id nxt = some b) :
    (∀ n t₁ t₂, (n, t₁, t₂) ∈ c.types ↔
      List.lookup n (breakdown_name_to_type a.oraclesBreakdown) = some t₁ ∧
      List.lookup n (breakdown_name_to_type b.oraclesBreakdown) = some t₂ ∧ ¬ t₁ = t₂) ∧
    c.types.Pairwise (fun p q => p.1 < q.1) ∧
    (∀ n t₁ t₂, (n, t₁, t₂) ∈ c.types →
      (n ∈ c.plus ↔ n ∈ b.oracles ∧ n ∉ a.oracles) ∧
      (n ∈ c.minus ↔ n ∈ a.oracles ∧ n ∉ b.oracles)) := by
  obtain ⟨a', b', ha', hb', hf⟩ := mem_diff_states.mp hc
  obtain rfl : a = a' := Option.some.inj (ha.symm.trans ha')
  obtain rfl : b = b' := Option.some.inj (hb.symm.trans hb')
  have hceq := diffOne_eq_some hf
  refine ⟨fun n t₁ t₂ => ?_, ?_, fun n t₁ t₂ hmem => ?_⟩
  · rw [hceq]
    exact mem_diffTypes a b n t₁ t₂
  · rw [hceq]
    exact pairwise_fst_diffTypes a b
  · rw [hceq] at hmem ⊢
    obtain ⟨hta, htb, -⟩ := (mem_diffTypes a b n t₁ t₂).mp hmem
    have hna : bdName a.oraclesBreakdown n :=
      (mem_keysOf_bt _ n).mp ((lookup_isSome_iff n _).mp (by rw [hta]; rfl))
    have hnb : bdName b.oraclesBreakdown n :=
      (mem_keysOf_bt _ n).mp ((lookup_isSome_iff n _).mp (by rw [htb]; rfl))
    constructor
    · exact (mem_diffPlus a b n).trans (by tauto)
    · exact (mem_diffMinus a b n).trans (by tauto)

theorem c5_types_characterization_witness :
    diff_states [("p1", recChainPrimary)] [("p1", recChainSecondary)] = [changeChain] ∧
    (("Chainlink", "primary", "secondary") ∈ changeChain.types ↔
      List.lookup "Chainlink" (breakdown_name_to_type recChainPrimary.oraclesBreakdown) =
        some "primary" ∧
      List.lookup "Chainlink" (breakdown_name_to_type recChainSecondary.oraclesBreakdown) =
        some "secondary" ∧ ¬ ("primary" : String) = "secondary") :=
  ⟨by decide,
    (c5_types_characterization [("p1", recChainPrimary)] [("p1", recChainSecondary)]
      recChainPrimary recChainSecondary changeChain
      (by decide) (by decide) (by decide)).1 "Chainlink" "primary" "secondary"⟩

/-! ### Claim C10: whitespace-only breakdown names are invisible to diffing -/

theorem bt_insert_ws (l₁ l₂ : List BreakdownItem) (e : BreakdownItem)
    (he : pyStrip e.name = "") :
    breakdown_name_to_type (l₁ ++ e :: l₂) = breakdown_name_to_type (l₁ ++ l₂) := by
  unfold breakdown_name_to_type
  rw [List.foldl_append, List.foldl_append, List.foldl_cons, if_pos he]

theorem diffOne_ext {pid : String} {a a' b b' : ProtocolRec}
    (hao : a.oracles = a'.oracles) (hbo : b.oracles = b'.oracles)
    (han : a.name = a'.name) (hbn : b.name = b'.name) (hbf : b.file = b'.file)
    (habt : breakdown_name_to_type a.oraclesBreakdown =
      breakdown_name_to_type a'.oraclesBreakdown)
    (hbbt : breakdown_name_to_type b.oraclesBreakdown =
      breakdown_name_to_type b'.oraclesBreakdown) :
    diffOne pid a b = diffOne pid a' b' := by
  unfold diffOne diffPlus diffMinus diffTypes
  rw [hao, hbo, han, hbn, hbf, habt, hbbt]

/-- C10: the breakdown name-to-type map keeps only entries whose stripped
name is non-empty, keyed and valued by the stripped strings; and inserting
an entry whose name strips to empty anywhere into either side's
`oraclesBreakdown` leaves the diff of that id unchanged - such an entry
contributes to neither `plus`, `minus` nor `types`. -/
theorem c10_whitespace_names_invisible :
    (∀ (lst : List BreakdownItem) (n t : String),
      List.lookup n (breakdown_name_to_type lst) = some t →
        ¬ n = "" ∧ ∃ x ∈ lst, pyStrip x.name = n ∧ pyStrip x.type = t) ∧
    (∀ (pid : String) (a b : ProtocolRec) (e : BreakdownItem)
        (l₁ l₂ : List BreakdownItem), pyStrip e.name = "" →
      diffOne pid { a with oraclesBreakdown := l₁ ++ e :: l₂ } b =
        diffOne pid { a with oraclesBreakdown := l₁ ++ l₂ } b ∧
      diffOne pid a { b with oraclesBreakdown := l₁ ++ e :: l₂ } =
        diffOne pid a { b with oraclesBreakdown := l₁ ++ l₂ }) := by
  refine ⟨fun lst n t h => bt_lookup_some h, fun pid a b e l₁ l₂ he => ⟨?_, ?_⟩⟩
  · exact diffOne_ext rfl rfl rfl rfl rfl (bt_insert_ws l₁ l₂ e he) rfl
  · exact diffOne_ext rfl rfl rfl rfl rfl rfl (bt_insert_ws l₁ l₂ e he)

/-! ### The syntax-tree interface and the extractor

A parsed syntax-tree node, as the extractor observes it through the
external parser capability (spec section 6): a kind tag (`node.type`), the
source text of the node's byte span (`get_text(node, src)` is precomputed
into the node), the child lists, and - for `pair` nodes - the children
found by `child_by_field_name("key")` / `child_by_field_name("value")`. -/

inductive TSNode : Type where
  | mk (ty : String) (text : String) (children : List TSNode)
       (namedChildren : List TSNode) (fieldKey : Option TSNode) (fieldValue : Option TSNode)

def TSNode.ty : TSNode → String
  | .mk t _ _ _ _ _ => t

def TSNode.text : TSNode → String
  | .mk _ tx _ _ _ _ => tx

def TSNode.children : TSNode → List TSNode
  | .mk _ _ cs _ _ _ => cs

def TSNode.namedChildren : TSNode → List TSNode
  | .mk _ _ _ ncs _ _ => ncs

def TSNode.fieldKey : TSNode → Option TSNode
  | .mk _ _ _ _ k _ => k

def TSNode.fieldValue : TSNode → Option TSNode
  | .mk _ _ _ _ _ v => v

/-- `get_text(node, src)`: the source text of the node's span. -/
def get_text (n : TSNode) : String :=
  n.text

/-- The single-quote character (written by code point to keep the source
ASCII-clean). -/
def squote : Char := Char.ofNat 39

/-- `unquote(s)`: strip exactly one matching pair of quote characters
(`s[1:-1]` when `len(s) >= 2` and `s[0] == s[-1]` is a quote), else return
`s` unchanged. -/
def unquote (s : String) : String :=
  if 2 ≤ s.data.length ∧
      ((s.data.head? = some '"' ∧ s.data.getLast? = some '"') ∨
        (s.data.head? = some squote ∧ s.data.getLast? = some squote))
  then ⟨(s.data.drop 1).dropLast⟩ else s

def node_is_string (n : TSNode) : Bool := n.ty == "string"

def node_is_array (n : TSNode) : Bool := n.ty == "array"

def node_is_object (n : TSNode) : Bool := n.ty == "object"

/-- `iter_object_pairs(obj)`: the `(key, value)` field pairs of the `pair`
children of an object node (pairs with a missing key or value child are
skipped). -/
def iter_object_pairs (obj : TSNode) : List (TSNode × TSNode) :=
  obj.children.filterMap (fun c =>
    if c.ty = "pair" then
      match c.fieldKey, c.fieldValue with
      | some k, some v => some (k, v)
      | _, _ => none
    else none)

/-- `key_name(key_node, src)`: a bare property identifier's text, a string
key unquoted, anything else `None`. -/
def key_name (k : TSNode) : Option String :=
  if k.ty = "property_identifier" then some (get_text k)
  else if k.ty = "string" then some (unquote (get_text k))
  else none

/-- `array_string_values(arr, src)`: the unquoted texts of the string
elements among the array's named children. -/
def array_string_values (arr : TSNode) : List String :=
  arr.namedChildren.filterMap (fun el =>
    if node_is_string el = true then some (unquote (get_text el)) else none)

/-- The inner loop of `oracles_breakdown_items` for one object element:
fold the element's pairs, recording the last string-valued `name` and
`type` (empty string when absent or not a string). -/
def breakdownEntryOf (el : TSNode) : BreakdownItem :=
  (iter_object_pairs el).foldl (fun st kv =>
    match key_name kv.1 with
    | some k =>
      if k = "name" ∧ node_is_string kv.2 = true then
        { st with name := unquote (get_text kv.2) }
      else if k = "type" ∧ node_is_string kv.2 = true then
        { st with type := unquote (get_text kv.2) }
      else st
    | none => st) ⟨"", ""⟩

/-- The Python sort key `lambda x: (x["name"], x["type"])`: lexicographic
order on the `(name, type)` pair. -/
def bdLe (x y : BreakdownItem) : Prop :=
  x.name < y.name ∨ (x.name = y.name ∧ x.type ≤ y.type)

instance : DecidableRel bdLe := fun x y => by
  unfold bdLe; exact inferInstance

instance : IsTotal BreakdownItem bdLe where
  total x y := by
    rcases lt_trichotomy x.name y.name with h | h | h
    · exact Or.inl (Or.inl h)
    · rcases le_total x.type y.type with ht | ht
      · exact Or.inl (Or.inr ⟨h, ht⟩)
      · exact Or.inr (Or.inr ⟨h.symm, ht⟩)
    · exact Or.inr (Or.inl h)

instance : IsTrans BreakdownItem bdLe where
  trans x y z hxy hyz := by
    rcases hxy with h1 | ⟨e1, t1⟩
    · rcases hyz with h2 | ⟨e2, t2⟩
      · exact Or.inl (h1.trans h2)
      · exact Or.inl (e2 ▸ h1)
    · rcases hyz with h2 | ⟨e2, t2⟩
      · exact Or.inl (e1 ▸ h2)
      · exact Or.inr ⟨e1.trans e2, t1.trans t2⟩

/-- `oracles_breakdown_items(arr, src)`: for each object element build the
`{name, type}` entry, keep it when `name_val or type_val` is truthy, and
sort the result by the `(name, type)` key. -/
def oracles_breakdown_items (arr : TSNode) : List BreakdownItem :=
  List.insertionSort bdLe
    (arr.namedChildren.filterMap (fun el =>
      if node_is_object el = true then
        if ¬ (breakdownEntryOf el).name = "" ∨ ¬ (breakdownEntryOf el).type = "" then
          some (breakdownEntryOf el)
        else none
      else none))

/-- The loop state of `object_to_protocol_min`: `pid`, `name_val`,
`oracles`, `breakdown`. -/
structure ProtoAcc where
  pid : Option String
  name_val : String
  oracles : List String
  breakdown : List BreakdownItem

/-- One iteration of the `object_to_protocol_min` loop over a `(key,
value)` pair. -/
def protoStep (st : ProtoAcc) (kv : TSNode × TSNode) : ProtoAcc :=
  match key_name kv.1 with
  | none => st
  | some k =>
    if k = "" then st
    else if k = "id" ∧ node_is_string kv.2 = true then
      { st with pid := some (unquote (get_text kv.2)) }
    else if k = "name" ∧ node_is_string kv.2 = true then
      { st with name_val := unquote (get_text kv.2) }
    else if k = "oracles" ∧ node_is_array kv.2 = true then
      { st with oracles := pySorted (array_string_values kv.2) }
    else if k = "oraclesBreakdown" ∧ node_is_array kv.2 = true then
      { st with breakdown := oracles_breakdown_items kv.2 }
    else st

/-- The tail of `object_to_protocol_min`: `if not pid: return None` and the
record literal. -/
def protoFinish (st : ProtoAcc) (file_name : String) : Option ProtocolRec :=
  match st.pid with
  | none => none
  | some pid =>
    if pid = "" then none
    else some ⟨pid, st.name_val, file_name, st.oracles, st.breakdown⟩

/-- `object_to_protocol_min(obj_node, src, file_name)`: scan the object's
pairs and build the normalized record; `None` when no truthy id was
found. -/
def object_to_protocol_min (obj : TSNode) (file_name : String) : Option ProtocolRec :=
  protoFinish ((iter_object_pairs obj).foldl protoStep ⟨none, "", [], []⟩) file_name

/-- Size of a syntax tree, for termination of the stack walk. -/
def tsSize : TSNode → Nat
  | .mk _ _ cs _ _ _ => 1 + ((cs.attach.map (fun c => tsSize c.1)).sum)
decreasing_by
  have h := List.sizeOf_lt_of_mem c.2
  simp only [TSNode.mk.sizeOf_spec]
  omega

def tsSizeL (l : List TSNode) : Nat := (l.map tsSize).sum

theorem tsSize_mk (ty tx : String) (cs ncs : List TSNode) (k v : Option TSNode) :
    tsSize (.mk ty tx cs ncs k v) = 1 + tsSizeL cs := by
  simp only [tsSize, tsSizeL]
  congr 1
  exact congrArg List.sum (List.attach_map_val cs tsSize)

theorem tsSizeL_append (l₁ l₂ : List TSNode) :
    tsSizeL (l₁ ++ l₂) = tsSizeL l₁ + tsSizeL l₂ := by
  simp [tsSizeL]

theorem tsSizeL_reverse (l : List TSNode) : tsSizeL l.reverse = tsSizeL l := by
  simp [tsSizeL, List.sum_reverse]

/-- The `while stack:` loop of `parse_file_ts`: pop a node, record it in
`by_id` when it is an object with a truthy id, push its children (Python
appends the children in order and pops from the end, so the head of our
stack carries the children reversed). -/
def walkAux (stack : List TSNode) (by_id : Dict ProtocolRec) (file_name : String) :
    Dict ProtocolRec :=
  match stack with
  | [] => by_id
  | n :: rest =>
    walkAux (n.children.reverse ++ rest)
      (if node_is_object n = true then
        match object_to_protocol_min n file_name with
        | some mini => if ¬ mini.id = "" then updateAssoc by_id mini.id mini else by_id
        | none => by_id
      else by_id) file_name
termination_by tsSizeL stack
decreasing_by
  cases n with
  | mk ty tx cs ncs k v =>
    simp only [tsSizeL, TSNode.children, List.map_cons, List.sum_cons, List.map_append,
      List.sum_append, List.map_reverse, List.sum_reverse, tsSize_mk]
    omega

/-- `parse_file_ts(parser, path)` after parsing: depth-first stack walk of
the whole tree collecting records by id. -/
def parse_file_ts (root : TSNode) (file_name : String) : Dict ProtocolRec :=
  walkAux [root] [] file_name

/-- All nodes of a tree (the nodes the stack walk visits). -/
def allNodes : TSNode → List TSNode
  | .mk ty tx cs ncs k v =>
    TSNode.mk ty tx cs ncs k v :: (cs.attach.map (fun c => allNodes c.1)).flatten
decreasing_by
  have h := List.sizeOf_lt_of_mem c.2
  simp only [TSNode.mk.sizeOf_spec]
  omega

/-- An object literal carries a string-valued `id` field. -/
def hasStringId (obj : TSNode) : Prop :=
  ∃ kv ∈ iter_object_pairs obj, key_name kv.1 = some "id" ∧ node_is_string kv.2 = true

instance (obj : TSNode) : Decidable (hasStringId obj) := by
  unfold hasStringId; exact inferInstance

theorem c10_whitespace_names_invisible_witness :
    (¬ ("n" : String) = "" ∧
      ∃ x ∈ ([⟨" ", "t"⟩, ⟨"n", " t2 "⟩] : List BreakdownItem),
        pyStrip x.name = "n" ∧ pyStrip x.type = "t2") ∧
    (diffOne "p1" { recAB with oraclesBreakdown := [] ++ (⟨" ", "zz"⟩ : BreakdownItem) :: [] }
        recBC =
      diffOne "p1" { recAB with oraclesBreakdown := [] ++ [] } recBC) :=
  ⟨(c10_whitespace_names_invisible.1 [⟨" ", "t"⟩, ⟨"n", " t2 "⟩] "n" "t2" (by decide)),
    (c10_whitespace_names_invisible.2 "p1" recAB recBC ⟨" ", "zz"⟩ [] [] (by decide)).1⟩

/-! ### Structural lemmas for the extractor -/

theorem walkAux_nil (d : Dict ProtocolRec) (fn : String) : walkAux [] d fn = d := by
  rw [walkAux.eq_def]

theorem walkAux_cons (n : TSNode) (rest : List TSNode) (d : Dict ProtocolRec) (fn : String) :
    walkAux (n :: rest) d fn =
      walkAux (n.children.reverse ++ rest)
        (if node_is_object n = true then
          match object_to_protocol_min n fn with
          | some mini => if ¬ mini.id = "" then updateAssoc d mini.id mini else d
          | none => d
        else d) fn := by
  rw [walkAux.eq_def]

theorem allNodes_mk (ty tx : String) (cs ncs : List TSNode) (k v : Option TSNode) :
    allNodes (.mk ty tx cs ncs k v) =
      TSNode.mk ty tx cs ncs k v :: (cs.attach.map (fun c => allNodes c.1)).flatten := by
  rw [allNodes.eq_def]

theorem self_mem_allNodes (n : TSNode) : n ∈ allNodes n := by
  cases n with
  | mk ty tx cs ncs k v =>
    rw [allNodes_mk]
    exact List.mem_cons_self _ _

theorem mem_allNodes_of_child {c x : TSNode} (n : TSNode) (hc : c ∈ n.children)
    (hx : x ∈ allNodes c) : x ∈ allNodes n := by
  cases n with
  | mk ty tx cs ncs k v =>
    rw [allNodes_mk]
    refine List.mem_cons_of_mem _ (List.mem_flatten.mpr ⟨allNodes c, ?_, hx⟩)
    exact List.mem_map.mpr ⟨⟨c, by simpa [TSNode.children] using hc⟩, List.mem_attach _ _, rfl⟩

theorem mem_updateAssoc {α : Type} {q : String × α} {d : Dict α} {k : String} {v : α}
    (h : q ∈ updateAssoc d k v) : q = (k, v) ∨ q ∈ d := by
  unfold updateAssoc at h
  split at h
  · obtain ⟨p, hp, hpq⟩ := List.mem_map.mp h
    by_cases hk : p.1 == k
    · rw [if_pos hk] at hpq
      exact Or.inl hpq.symm
    · rw [if_neg hk] at hpq
      exact Or.inr (hpq ▸ hp)
  · rcases List.mem_append.mp h with h' | h'
    · exact Or.inr h'
    · exact Or.inl (List.mem_singleton.mp h')

theorem tsSize_pos (n : TSNode) : 1 ≤ tsSize n := by
  cases n with
  | mk ty tx cs ncs k v =>
    rw [tsSize_mk]
    omega

/-- Generic analysis of the `object_to_protocol_min` loop: a field of the
accumulator is either untouched or was set by a pair satisfying the
field's guard. -/
theorem foldl_protoStep_proj {γ : Type} (proj : ProtoAcc → γ) (g : TSNode × TSNode → γ)
    (P : TSNode × TSNode → Prop)
    (hstep : ∀ st kv, proj (protoStep st kv) = proj st ∨ (P kv ∧ proj (protoStep st kv) = g kv))
    (l : List (TSNode × TSNode)) (st : ProtoAcc) :
    proj (l.foldl protoStep st) = proj st ∨
      ∃ kv ∈ l, P kv ∧ proj (l.foldl protoStep st) = g kv := by
  induction l generalizing st with
  | nil => exact Or.inl rfl
  | cons kv l ih =>
    rw [List.foldl_cons]
    rcases ih (protoStep st kv) with h | ⟨kv', hkv', hP, heq⟩
    · rcases hstep st kv with h2 | ⟨hP, h2⟩
      · exact Or.inl (h.trans h2)
      · exact Or.inr ⟨kv, List.mem_cons_self _ _, hP, h.trans h2⟩
    · exact Or.inr ⟨kv', List.mem_cons_of_mem _ hkv', hP, heq⟩

theorem protoStep_pid (st : ProtoAcc) (kv : TSNode × TSNode) :
    (protoStep st kv).pid = st.pid ∨
      ((key_name kv.1 = some "id" ∧ node_is_string kv.2 = true) ∧
        (protoStep st kv).pid = some (unquote (get_text kv.2))) := by
  unfold protoStep
  cases hk : key_name kv.1 with
  | none => exact Or.inl rfl
  | some k =>
    simp only []
    by_cases h0 : k = ""
    · rw [if_pos h0]; exact Or.inl rfl
    · rw [if_neg h0]
      by_cases h1 : k = "id" ∧ node_is_string kv.2 = true
      · rw [if_pos h1]
        exact Or.inr ⟨⟨by rw [h1.1], h1.2⟩, rfl⟩
      · rw [if_neg h1]
        by_cases h2 : k = "name" ∧ node_is_string kv.2 = true
        · rw [if_pos h2]; exact Or.inl rfl
        · rw [if_neg h2]
          by_cases h3 : k = "oracles" ∧ node_is_array kv.2 = true
          · rw [if_pos h3]; exact Or.inl rfl
          · rw [if_neg h3]
            by_cases h4 : k = "oraclesBreakdown" ∧ node_is_array kv.2 = true
            · rw [if_pos h4]; exact Or.inl rfl
            · rw [if_neg h4]; exact Or.inl rfl

theorem protoStep_oracles (st : ProtoAcc) (kv : TSNode × TSNode) :
    (protoStep st kv).oracles = st.oracles ∨
      ((key_name kv.1 = some "oracles" ∧ node_is_array kv.2 = true) ∧
        (protoStep st kv).oracles = pySorted (array_string_values kv.2)) := by
  unfold protoStep
  cases hk : key_name kv.1 with
  | none => exact Or.inl rfl
  | some k =>
    simp only []
    by_cases h0 : k = ""
    · rw [if_pos h0]; exact Or.inl rfl
    · rw [if_neg h0]
      by_cases h1 : k = "id" ∧ node_is_string kv.2 = true
      · rw [if_pos h1]; exact Or.inl rfl
      · rw [if_neg h1]
        by_cases h2 : k = "name" ∧ node_is_string kv.2 = true
        · rw [if_pos h2]; exact Or.inl rfl
        · rw [if_neg h2]
          by_cases h3 : k = "oracles" ∧ node_is_array kv.2 = true
          · rw [if_pos h3]
            exact Or.inr ⟨⟨by rw [h3.1], h3.2⟩, rfl⟩
          · rw [if_neg h3]
            by_cases h4 : k = "oraclesBreakdown" ∧ node_is_array kv.2 = true
            · rw [if_pos h4]; exact Or.inl rfl
            · rw [if_neg h4]; exact Or.inl rfl

theorem protoStep_breakdown (st : ProtoAcc) (kv : TSNode × TSNode) :
    (protoStep st kv).breakdown = st.breakdown ∨
      ((key_name kv.1 = some "oraclesBreakdown" ∧ node_is_array kv.2 = true) ∧
        (protoStep st kv).breakdown = oracles_breakdown_items kv.2) := by
  unfold protoStep
  cases hk : key_name kv.1 with
  | none => exact Or.inl rfl
  | some k =>
    simp only []
    by_cases h0 : k = ""
    · rw [if_pos h0]; exact Or.inl rfl
    · rw [if_neg h0]
      by_cases h1 : k = "id" ∧ node_is_string kv.2 = true
      · rw [if_pos h1]; exact Or.inl rfl
      · rw [if_neg h1]
        by_cases h2 : k = "name" ∧ node_is_string kv.2 = true
        · rw [if_pos h2]; exact Or.inl rfl
        · rw [if_neg h2]
          by_cases h3 : k = "oracles" ∧ node_is_array kv.2 = true
          · rw [if_pos h3]; exact Or.inl rfl
          · rw [if_neg h3]
            by_cases h4 : k = "oraclesBreakdown" ∧ node_is_array kv.2 = true
            · rw [if_pos h4]
              exact Or.inr ⟨⟨by rw [h4.1], h4.2⟩, rfl⟩
            · rw [if_neg h4]; exact Or.inl rfl

theorem protoFinish_pid_none {st : ProtoAcc} (fn : String) (hp : st.pid = none) :
    protoFinish st fn = none := by
  unfold protoFinish
  rw [hp]

theorem protoFinish_some {st : ProtoAcc} {fn : String} {rec : ProtocolRec}
    (h : protoFinish st fn = some rec) :
    st.pid = some rec.id ∧ ¬ rec.id = "" ∧ rec.name = st.name_val ∧ rec.file = fn ∧
      rec.oracles = st.oracles ∧ rec.oraclesBreakdown = st.breakdown := by
  unfold protoFinish at h
  cases hp : st.pid with
  | none =>
    simp only [hp] at h
    cases h
  | some pid =>
    simp only [hp] at h
    by_cases hpe : pid = ""
    · rw [if_pos hpe] at h; cases h
    · rw [if_neg hpe] at h
      obtain rfl := Option.some.inj h
      exact ⟨rfl, hpe, rfl, rfl, rfl, rfl⟩

theorem o2pm_none_of_not_hasStringId (obj : TSNode) (fn : String)
    (h : ¬ hasStringId obj) : object_to_protocol_min obj fn = none := by
  unfold object_to_protocol_min
  rcases foldl_protoStep_proj ProtoAcc.pid (fun kv => some (unquote (get_text kv.2)))
      (fun kv => key_name kv.1 = some "id" ∧ node_is_string kv.2 = true)
      protoStep_pid (iter_object_pairs obj) ⟨none, "", [], []⟩ with hp | ⟨kv, hkv, hP, -⟩
  · exact protoFinish_pid_none fn hp
  · exact absurd ⟨kv, hkv, hP⟩ h

theorem o2pm_some_spec {obj : TSNode} {fn : String} {rec : ProtocolRec}
    (h : object_to_protocol_min obj fn = some rec) :
    hasStringId obj ∧
    (rec.oracles = [] ∨ ∃ kv ∈ iter_object_pairs obj,
      key_name kv.1 = some "oracles" ∧ node_is_array kv.2 = true ∧
      rec.oracles = pySorted (array_string_values kv.2)) ∧
    (rec.oraclesBreakdown = [] ∨ ∃ kv ∈ iter_object_pairs obj,
      key_name kv.1 = some "oraclesBreakdown" ∧ node_is_array kv.2 = true ∧
      rec.oraclesBreakdown = oracles_breakdown_items kv.2) := by
  unfold object_to_protocol_min at h
  obtain ⟨hpid, hne, hname, hfile, hors, hbd⟩ := protoFinish_some h
  refine ⟨?_, ?_, ?_⟩
  · rcases foldl_protoStep_proj ProtoAcc.pid (fun kv => some (unquote (get_text kv.2)))
        (fun kv => key_name kv.1 = some "id" ∧ node_is_string kv.2 = true)
        protoStep_pid (iter_object_pairs obj) ⟨none, "", [], []⟩ with hq | ⟨kv, hkv, hP, -⟩
    · cases hq.symm.trans hpid
    · exact ⟨kv, hkv, hP⟩
  · rcases foldl_protoStep_proj ProtoAcc.oracles
        (fun kv => pySorted (array_string_values kv.2))
        (fun kv => key_name kv.1 = some "oracles" ∧ node_is_array kv.2 = true)
        protoStep_oracles (iter_object_pairs obj) ⟨none, "", [], []⟩ with hq | ⟨kv, hkv, hP, hval⟩
    · exact Or.inl (hors.trans hq)
    · exact Or.inr ⟨kv, hkv, hP.1, hP.2, hors.trans hval⟩
  · rcases foldl_protoStep_proj ProtoAcc.breakdown
        (fun kv => oracles_breakdown_items kv.2)
        (fun kv => key_name kv.1 = some "oraclesBreakdown" ∧ node_is_array kv.2 = true)
        protoStep_breakdown (iter_object_pairs obj) ⟨none, "", [], []⟩ with hq | ⟨kv, hkv, hP, hval⟩
    · exact Or.inl (hbd.trans hq)
    · exact Or.inr ⟨kv, hkv, hP.1, hP.2, hbd.trans hval⟩

theorem walkAux_entries :
    ∀ (N : Nat) (stack : List TSNode), tsSizeL stack ≤ N →
      ∀ (d : Dict ProtocolRec) (fn : String) (p : String × ProtocolRec),
        p ∈ walkAux stack d fn →
          p ∈ d ∨ ∃ obj s, s ∈ stack ∧ obj ∈ allNodes s ∧ node_is_object obj = true ∧
            object_to_protocol_min obj fn = some p.2 := by
  intro N
  induction N with
  | zero =>
    intro stack hN d fn p hp
    cases stack with
    | nil =>
      rw [walkAux_nil] at hp
      exact Or.inl hp
    | cons n rest =>
      exfalso
      have h1 := tsSize_pos n
      have h2 : tsSizeL (n :: rest) = tsSize n + tsSizeL rest := by simp [tsSizeL]
      omega
  | succ N ih =>
    intro stack hN d fn p hp
    cases stack with
    | nil =>
      rw [walkAux_nil] at hp
      exact Or.inl hp
    | cons n rest =>
      rw [walkAux_cons] at hp
      have hsz : tsSizeL (n.children.reverse ++ rest) ≤ N := by
        have h1 := tsSize_pos n
        have h2 : tsSizeL (n :: rest) = tsSize n + tsSizeL rest := by simp [tsSizeL]
        have h3 : tsSizeL (n.children.reverse ++ rest) = tsSizeL n.children + tsSizeL rest := by
          rw [tsSizeL_append, tsSizeL_reverse]
        have h4 : tsSize n = 1 + tsSizeL n.children := by
          cases n with
          | mk ty tx cs ncs k v => rw [tsSize_mk]; rfl
        omega
      rcases ih _ hsz _ fn p hp with hin | ⟨obj, s, hs, hobj, hiso, hsome⟩
      · by_cases ho : node_is_object n = true
        · rw [if_pos ho] at hin
          cases hm : object_to_protocol_min n fn with
          | none =>
            simp only [hm] at hin
            exact Or.inl hin
          | some mini =>
            simp only [hm] at hin
            by_cases hid : ¬ mini.id = ""
            · rw [if_pos hid] at hin
              rcases mem_updateAssoc hin with heq | hind
              · refine Or.inr ⟨n, n, List.mem_cons_self _ _, self_mem_allNodes n, ho, ?_⟩
                rw [heq]
                exact hm
              · exact Or.inl hind
            · rw [if_neg hid] at hin
              exact Or.inl hin
        · rw [if_neg ho] at hin
          exact Or.inl hin
      · rcases List.mem_append.mp hs with hs' | hs'
        · exact Or.inr ⟨obj, n, List.mem_cons_self _ _,
            mem_allNodes_of_child n (List.mem_reverse.mp hs') hobj, hiso, hsome⟩
        · exact Or.inr ⟨obj, s, List.mem_cons_of_mem _ hs', hobj, hiso, hsome⟩

theorem parse_entries {root : TSNode} {fn : String} {p : String × ProtocolRec}
    (hp : p ∈ parse_file_ts root fn) :
    ∃ obj, obj ∈ allNodes root ∧ node_is_object obj = true ∧
      object_to_protocol_min obj fn = some p.2 := by
  unfold parse_file_ts at hp
  rcases walkAux_entries (tsSizeL [root]) [root] le_rfl [] fn p hp with h |
    ⟨obj, s, hs, hobj, hiso, hsome⟩
  · cases h
  · obtain rfl := List.mem_singleton.mp hs
    exact ⟨obj, hobj, hiso, hsome⟩

theorem obi_sorted (arr : TSNode) : (oracles_breakdown_items arr).Sorted bdLe :=
  List.sorted_insertionSort bdLe _

theorem obi_mem {arr : TSNode} {it : BreakdownItem} (h : it ∈ oracles_breakdown_items arr) :
    (¬ it.name = "" ∨ ¬ it.type = "") ∧
    ∃ el ∈ arr.namedChildren, node_is_object el = true ∧ it = breakdownEntryOf el := by
  unfold oracles_breakdown_items at h
  rw [(List.perm_insertionSort _ _).mem_iff] at h
  obtain ⟨el, hel, hf⟩ := List.mem_filterMap.mp h
  by_cases ho : node_is_object el = true
  · rw [if_pos ho] at hf
    by_cases hne : ¬ (breakdownEntryOf el).name = "" ∨ ¬ (breakdownEntryOf el).type = ""
    · rw [if_pos hne] at hf
      obtain rfl := Option.some.inj hf
      exact ⟨hne, el, hel, ho, rfl⟩
    · rw [if_neg hne] at hf
      cases hf
  · rw [if_neg ho] at hf
    cases hf

/-! ### Concrete syntax trees for the extractor witnesses -/

/-- A string literal node (text carries the surrounding quotes). -/
def strNode (s : String) : TSNode := .mk "string" ("\"" ++ s ++ "\"") [] [] none none

/-- A bare property-identifier key node. -/
def keyNode (s : String) : TSNode := .mk "property_identifier" s [] [] none none

/-- A `pair` node; its key and value are both field children and ordinary
children (as in a real tree). -/
def pairNode (k v : TSNode) : TSNode := .mk "pair" "" [k, v] [] (some k) (some v)

/-- An object literal node whose children are its pairs. -/
def objNode (ps : List TSNode) : TSNode := .mk "object" "" ps [] none none

/-- An array node; its elements are both children and named children. -/
def arrNode (els : List TSNode) : TSNode := .mk "array" "" els els none none

/-- A file root node. -/
def progNode (cs : List TSNode) : TSNode := .mk "program" "" cs [] none none

/-- An object literal with a `name` but no `id`. -/
def wObjNoId : TSNode := objNode [pairNode (keyNode "name") (strNode "Foo")]

/-- An object literal with a string `id`. -/
def wObjId : TSNode := objNode [pairNode (keyNode "id") (strNode "p9")]

/-- A file containing one recognized object. -/
def wRoot : TSNode := progNode [wObjId]

/-- The record extracted from `wObjId` in file `f.ts`. -/
def wRecId : ProtocolRec := ⟨"p9", "", "f.ts", [], []⟩

/-- An `oracles` array with a duplicate, out of order. -/
def wOraclesArr : TSNode := arrNode [strNode "b", strNode "a", strNode "a"]

/-- A breakdown entry object `{name: N, type: T}`. -/
def wBdObj : TSNode :=
  objNode [pairNode (keyNode "name") (strNode "N"), pairNode (keyNode "type") (strNode "T")]

/-- An `oraclesBreakdown` array holding `wBdObj`. -/
def wBdArr : TSNode := arrNode [wBdObj]

/-- An object literal with `id`, `oracles` and `oraclesBreakdown`. -/
def wObjFull : TSNode :=
  objNode [pairNode (keyNode "id") (strNode "p9"),
           pairNode (keyNode "oracles") wOraclesArr,
           pairNode (keyNode "oraclesBreakdown") wBdArr]

/-- The record extracted from `wObjFull` in file `f.ts`. -/
def wRecFull : ProtocolRec := ⟨"p9", "", "f.ts", ["a", "b"], [⟨"N", "T"⟩]⟩

/-! ### Claim theorems: the extractor -/

/-- C6: an object literal that lacks a string-valued `id` field never
contributes a record: `object_to_protocol_min` returns `None` on it
whatever its other fields, and every entry of an extracted per-file dataset
is produced by an object node that does carry a string-valued `id`. -/
theorem c6_missing_id_never_extracted :
    (∀ (obj : TSNode) (fn : String), ¬ hasStringId obj →
      object_to_protocol_min obj fn = none) ∧
    (∀ (root : TSNode) (fn : String) (p : String × ProtocolRec), p ∈ parse_file_ts root fn →
      ∃ obj, obj ∈ allNodes root ∧ hasStringId obj ∧
        object_to_protocol_min obj fn = some p.2) := by
  constructor
  · exact fun obj fn h => o2pm_none_of_not_hasStringId obj fn h
  · intro root fn p hp
    obtain ⟨obj, hmem, -, hsome⟩ := parse_entries hp
    exact ⟨obj, hmem, (o2pm_some_spec hsome).1, hsome⟩

theorem c6_missing_id_never_extracted_witness :
    object_to_protocol_min wObjNoId "f.ts" = none ∧
    ∃ obj, obj ∈ allNodes wRoot ∧ hasStringId obj ∧
      object_to_protocol_min obj "f.ts" = some wRecId :=
  ⟨c6_missing_id_never_extracted.1 wObjNoId "f.ts" (by decide),
   c6_missing_id_never_extracted.2 wRoot "f.ts" ("p9", wRecId)
     (by
       have h : parse_file_ts wRoot "f.ts" = [("p9", wRecId)] := by
         simp only [parse_file_ts, wRoot, wObjId, progNode, objNode, pairNode, keyNode, strNode,
           walkAux_cons, walkAux_nil, TSNode.children, List.reverse_cons, List.reverse_nil,
           List.nil_append, List.cons_append, List.append_nil, List.append_assoc]
         decide
       rw [h]
       exact List.mem_singleton.mpr rfl)⟩

/-- C7: every extracted record is canonical: `oracles` is strictly sorted
(sorted, duplicate-free) and, when non-empty, drawn exactly from the string
elements of an `oracles` array pair of the object; `oraclesBreakdown` is
sorted by the `(name, type)` key and, when non-empty, equals
`oracles_breakdown_items` of an `oraclesBreakdown` array pair - whose
entries all come from object-literal elements and never have both fields
empty. -/
theorem c7_canonical_form :
    (∀ (obj : TSNode) (fn : String) (rec : ProtocolRec),
      object_to_protocol_min obj fn = some rec →
        rec.oracles.Sorted (· < ·) ∧ rec.oracles.Nodup ∧
        (rec.oracles = [] ∨ ∃ kv ∈ iter_object_pairs obj,
          key_name kv.1 = some "oracles" ∧ node_is_array kv.2 = true ∧
          (∀ x, x ∈ rec.oracles ↔ x ∈ array_string_values kv.2)) ∧
        rec.oraclesBreakdown.Sorted bdLe ∧
        (rec.oraclesBreakdown = [] ∨ ∃ kv ∈ iter_object_pairs obj,
          key_name kv.1 = some "oraclesBreakdown" ∧ node_is_array kv.2 = true ∧
          rec.oraclesBreakdown = oracles_breakdown_items kv.2)) ∧
    (∀ (arr : TSNode) (it : BreakdownItem), it ∈ oracles_breakdown_items arr →
      (¬ it.name = "" ∨ ¬ it.type = "") ∧
      ∃ el ∈ arr.namedChildren, node_is_object el = true ∧ it = breakdownEntryOf el) := by
  constructor
  · intro obj fn rec h
    obtain ⟨-, hors, hbd⟩ := o2pm_some_spec h
    refine ⟨?_, ?_, ?_, ?_, hbd⟩
    · rcases hors with h0 | ⟨kv, -, -, -, hval⟩
      · rw [h0]; exact List.sorted_nil
      · rw [hval]; exact sortedLt_pySorted _
    · rcases hors with h0 | ⟨kv, -, -, -, hval⟩
      · rw [h0]; exact List.nodup_nil
      · rw [hval]; exact nodup_pySorted _
    · rcases hors with h0 | ⟨kv, hkv, hk, ha, hval⟩
      · exact Or.inl h0
      · exact Or.inr ⟨kv, hkv, hk, ha, fun x => by rw [hval]; exact mem_pySorted x _⟩
    · rcases hbd with h0 | ⟨kv, -, -, -, hval⟩
      · rw [h0]; exact List.sorted_nil
      · rw [hval]; exact obi_sorted kv.2
  · intro arr it h
    exact obi_mem h

theorem c7_canonical_form_witness :
    (wRecFull.oracles.Sorted (· < ·) ∧ wRecFull.oracles.Nodup ∧
      (wRecFull.oracles = [] ∨ ∃ kv ∈ iter_object_pairs wObjFull,
        key_name kv.1 = some "oracles" ∧ node_is_array kv.2 = true ∧
        (∀ x, x ∈ wRecFull.oracles ↔ x ∈ array_string_values kv.2)) ∧
      wRecFull.oraclesBreakdown.Sorted bdLe ∧
      (wRecFull.oraclesBreakdown = [] ∨ ∃ kv ∈ iter_object_pairs wObjFull,
        key_name kv.1 = some "oraclesBreakdown" ∧ node_is_array kv.2 = true ∧
        wRecFull.oraclesBreakdown = oracles_breakdown_items kv.2)) ∧
    ((¬ (⟨"N", "T"⟩ : BreakdownItem).name = "" ∨ ¬ (⟨"N", "T"⟩ : BreakdownItem).type = "") ∧
      ∃ el ∈ wBdArr.namedChildren, node_is_object el = true ∧
        (⟨"N", "T"⟩ : BreakdownItem) = breakdownEntryOf el) :=
  ⟨c7_canonical_form.1 wObjFull "f.ts" wRecFull (by decide),
   c7_canonical_form.2 wBdArr ⟨"N", "T"⟩ (by decide)⟩

/-! ### The snapshot store -/

/-- A JSON value, as deserialized by `json.loads` (numbers carry their
literal text; the tracker never inspects them). -/
inductive Json : Type where
  | null
  | bool (b : Bool)
  | num (lit : String)
  | str (s : String)
  | arr (items : List Json)
  | obj (fields : List (String × Json))

/-- `load_snapshot()` over an abstract snapshot-file state: the input is
`none` when `SNAPSHOT_FILE` does not exist, otherwise the outcome of
`json.loads` on the file's text - `Except.error` when the text cannot be
deserialized (`json.loads` raises), `Except.ok v` when it deserializes to
the JSON value `v`. The function returns what the Python function returns:
it propagates the raise, and otherwise yields the deserialized value, with
`none` standing for Python `None` (both the absent-file sentinel and the
deserialization of JSON `null`). -/
def load_snapshot (file : Option (Except String Json)) : Except String (Option Json) :=
  match file with
  | none => .ok none
  | some (.error e) => .error e
  | some (.ok Json.null) => .ok none
  | some (.ok v) => .ok (some v)

/-- C8 counterexample: a snapshot file exists and its content `null`
deserializes fine, yet `load_snapshot` returns the absent sentinel - the
claimed equivalence "absent sentinel iff no snapshot file" fails. -/
theorem c8_counterexample :
    load_snapshot (some (.ok Json.null)) = .ok none ∧
      (some (Except.ok Json.null) : Option (Except String Json)) ≠ none :=
  ⟨rfl, fun h => Option.noConfusion h⟩

/-- C8 (amended): `load_snapshot` returns the absent sentinel iff no
snapshot file exists or the file's content deserializes to JSON `null`;
a file that cannot be deserialized raises the error instead of being
treated as absent; and any other file yields its fully deserialized value,
never a partial one. -/
theorem c8_load_raises_on_corrupt :
    (∀ f : Option (Except String Json),
      load_snapshot f = .ok none ↔ f = none ∨ f = some (.ok Json.null)) ∧
    (∀ e : String, load_snapshot (some (.error e)) = .error e) ∧
    (∀ v : Json, ¬ v = Json.null → load_snapshot (some (.ok v)) = .ok (some v)) := by
  refine ⟨fun f => ⟨fun h => ?_, fun h => ?_⟩, fun e => rfl, fun v hv => ?_⟩
  · match f with
    | none => exact Or.inl rfl
    | some (.error e) => exact absurd h (by simp [load_snapshot])
    | some (.ok Json.null) => exact Or.inr rfl
    | some (.ok (Json.bool b)) => exact absurd h (by simp [load_snapshot])
    | some (.ok (Json.num l)) => exact absurd h (by simp [load_snapshot])
    | some (.ok (Json.str s)) => exact absurd h (by simp [load_snapshot])
    | some (.ok (Json.arr xs)) => exact absurd h (by simp [load_snapshot])
    | some (.ok (Json.obj fs)) => exact absurd h (by simp [load_snapshot])
  · rcases h with rfl | rfl <;> rfl
  · cases v with
    | null => exact absurd rfl hv
    | bool b => rfl
    | num l => rfl
    | str s => rfl
    | arr xs => rfl
    | obj fs => rfl

theorem c8_load_raises_on_corrupt_witness :
    load_snapshot (some (.ok (Json.str "s"))) = .ok (some (Json.str "s")) :=
  c8_load_raises_on_corrupt.2.2 (Json.str "s") (fun h => Json.noConfusion h)

/-! ### The dataset build loop of `main` -/

/-- `TARGET_FILES = ["data.ts", "data1.ts", "data2.ts", "data3.ts",
"data4.ts"]`. -/
def TARGET_FILES : List String := ["data.ts", "data1.ts", "data2.ts", "data3.ts", "data4.ts"]

/-- Python `dataset.update(per_file)`: assign each binding of `m` into `d`,
in `m`'s order. -/
def dictUpdate {α : Type} (d m : Dict α) : Dict α :=
  m.foldl (fun acc kv => updateAssoc acc kv.1 kv.2) d

/-- The build loop of `main`: scan `TARGET_FILES` in order against the
repository `fs` (mapping a file name to its parsed tree when the file
exists), skip a missing file (`if not path.exists(): continue`), and merge
each existing file's parse into the dataset. -/
def build_dataset (fs : String → Option TSNode) : Dict ProtocolRec :=
  TARGET_FILES.foldl (fun dataset fname =>
    match fs fname with
    | none => dataset
    | some root => dictUpdate dataset (parse_file_ts root fname)) []

/-- The per-file maps of the target files that exist, in scan order. -/
def existingParses (fs : String → Option TSNode) : List (Dict ProtocolRec) :=
  TARGET_FILES.filterMap (fun fname => (fs fname).map (fun root => parse_file_ts root fname))

theorem nodup_keys_updateAssoc {α : Type} {d : Dict α} (k : String) (v : α)
    (h : (keysOf d).Nodup) : (keysOf (updateAssoc d k v)).Nodup := by
  unfold updateAssoc
  split
  · have hkeys : keysOf (d.map (fun p => if p.1 == k then (k, v) else p)) = keysOf d := by
      unfold keysOf
      rw [List.map_map]
      refine List.map_congr_left (fun p hp => ?_)
      by_cases hpk : p.1 == k
      · simp only [Function.comp_apply, if_pos hpk]
        exact (eq_of_beq hpk).symm
      · simp only [Function.comp_apply, if_neg hpk]
    rw [hkeys]
    exact h
  · rename_i hany
    unfold keysOf
    rw [List.map_append]
    refine List.Nodup.append h (List.nodup_singleton k) (fun a ha hmem => ?_)
    obtain rfl : a = k := by simpa using hmem
    obtain ⟨p, hp, hpk⟩ := List.mem_map.mp ha
    exact hany (List.any_eq_true.mpr ⟨p, hp, by simp [hpk]⟩)

theorem walkAux_nodup_keys :
    ∀ (N : Nat) (stack : List TSNode), tsSizeL stack ≤ N →
      ∀ (d : Dict ProtocolRec) (fn : String), (keysOf d).Nodup →
        (keysOf (walkAux stack d fn)).Nodup := by
  intro N
  induction N with
  | zero =>
    intro stack hN d fn hd
    cases stack with
    | nil => rw [walkAux_nil]; exact hd
    | cons n rest =>
      exfalso
      have h1 := tsSize_pos n
      have h2 : tsSizeL (n :: rest) = tsSize n + tsSizeL rest := by simp [tsSizeL]
      omega
  | succ N ih =>
    intro stack hN d fn hd
    cases stack with
    | nil => rw [walkAux_nil]; exact hd
    | cons n rest =>
      rw [walkAux_cons]
      have hsz : tsSizeL (n.children.reverse ++ rest) ≤ N := by
        have h1 := tsSize_pos n
        have h2 : tsSizeL (n :: rest) = tsSize n + tsSizeL rest := by simp [tsSizeL]
        have h3 : tsSizeL (n.children.reverse ++ rest) = tsSizeL n.children + tsSizeL rest := by
          rw [tsSizeL_append, tsSizeL_reverse]
        have h4 : tsSize n = 1 + tsSizeL n.children := by
          cases n with
          | mk ty tx cs ncs k v => rw [tsSize_mk]; rfl
        omega
      refine ih _ hsz _ fn ?_
      by_cases ho : node_is_object n = true
      · rw [if_pos ho]
        cases hm : object_to_protocol_min n fn with
        | none => exact hd
        | some mini =>
          simp only []
          by_cases hid : ¬ mini.id = ""
          · rw [if_pos hid]
            exact nodup_keys_updateAssoc mini.id mini hd
          · rw [if_neg hid]
            exact hd
      · rw [if_neg ho]
        exact hd

theorem parse_file_ts_nodup_keys (root : TSNode) (fn : String) :
    (keysOf (parse_file_ts root fn)).Nodup := by
  unfold parse_file_ts
  exact walkAux_nodup_keys (tsSizeL [root]) [root] le_rfl [] fn (by simp [keysOf])

theorem lookup_dictUpdate {α : Type} (d m : Dict α) (hm : (keysOf m).Nodup) (k : String) :
    List.lookup k (dictUpdate d m) = (List.lookup k m).or (List.lookup k d) := by
  induction m generalizing d with
  | nil => simp [dictUpdate]
  | cons p m ih =>
    have hm2 : (p.1 :: keysOf m).Nodup := by
      simpa only [keysOf, List.map_cons] using hm
    have hcons := List.nodup_cons.mp hm2
    have hm' : (keysOf m).Nodup := hcons.2
    have hp1 : p.1 ∉ keysOf m := hcons.1
    show List.lookup k (dictUpdate (updateAssoc d p.1 p.2) m) = _
    rw [ih (updateAssoc d p.1 p.2) hm', lookup_cons, lookup_updateAssoc]
    by_cases hk : k = p.1
    · subst hk
      have hnone : List.lookup p.1 m = none := by
        cases hl : List.lookup p.1 m with
        | none => rfl
        | some v =>
          exact absurd ((lookup_isSome_iff p.1 m).mp (by rw [hl]; rfl)) hp1
      rw [hnone, if_pos rfl, if_pos rfl]
      rfl
    · rw [if_neg hk, if_neg hk]

theorem build_fold_aux (files : List String) (fs : String → Option TSNode)
    (init : Dict ProtocolRec) :
    files.foldl (fun dataset fname =>
      match fs fname with
      | none => dataset
      | some root => dictUpdate dataset (parse_file_ts root fname)) init =
    (files.filterMap (fun fname => (fs fname).map (fun root => parse_file_ts root fname))).foldl
      dictUpdate init := by
  induction files generalizing init with
  | nil => rfl
  | cons f files ih =>
    rw [List.foldl_cons, List.filterMap_cons]
    cases hf : fs f with
    | none => simp only [Option.map_none']; exact ih init
    | some root =>
      simp only [Option.map_some']
      rw [List.foldl_cons]
      exact ih (dictUpdate init (parse_file_ts root f))

theorem lookup_foldl_dictUpdate (ms : List (Dict ProtocolRec))
    (hms : ∀ m ∈ ms, (keysOf m).Nodup) (init : Dict ProtocolRec) (k : String) :
    List.lookup k (ms.foldl dictUpdate init) =
      (ms.reverse.findSome? (fun m => List.lookup k m)).or (List.lookup k init) := by
  induction ms generalizing init with
  | nil => simp
  | cons m ms ih =>
    rw [List.foldl_cons, ih (fun x hx => hms x (List.mem_cons_of_mem _ hx)),
      List.reverse_cons, List.findSome?_append,
      lookup_dictUpdate init m (hms m (List.mem_cons_self _ _))]
    have hsingle : List.findSome? (fun m' => List.lookup k m') [m] = List.lookup k m := by
      cases hl : List.lookup k m <;> simp [List.findSome?, hl]
    rw [hsingle, Option.or_assoc]

/-- C9: the dataset is built by scanning the fixed `TARGET_FILES` list in
order; a listed file that does not exist is skipped silently while the
remaining files are still merged, and on an id collision across files the
record from the later file wins: an id's final binding is its binding in
the last existing file whose per-file map contains it. -/
theorem c9_build_scan_last_write_wins (fs : String → Option TSNode) (k : String) :
    build_dataset fs = (existingParses fs).foldl dictUpdate [] ∧
    List.lookup k (build_dataset fs) =
      (existingParses fs).reverse.findSome? (fun m => List.lookup k m) := by
  have h1 : build_dataset fs = (existingParses fs).foldl dictUpdate [] :=
    build_fold_aux TARGET_FILES fs []
  refine ⟨h1, ?_⟩
  rw [h1, lookup_foldl_dictUpdate _ (fun m hm => ?_) [] k]
  · simp
  · obtain ⟨fname, -, hmap⟩ := List.mem_filterMap.mp hm
    obtain ⟨root, -, rfl⟩ := Option.map_eq_some'.mp hmap
    exact parse_file_ts_nodup_keys root fname

end OracleTracker
